import Mathlib

/-!
Verification of the HF potential-energy-surface analysis pipeline from the
`IR_Analysis` notebook (Lab 3, IR spectra).

The pipeline fits a cubic spline to (bond length, energy) samples, evaluates
it on a fine uniform grid, locates the minimum-energy grid point, and
extracts the force constant, reduced mass and harmonic vibrational frequency.

All exact numeric computation is embedded over `ℚ` (the program's float
arithmetic is modelled by exact rational arithmetic); the frequency formulas,
which involve `π` and a square root, live over `ℝ`.
-/

namespace IRAnalysis

/-! ### Physical constants (notebook cell computing the reduced mass)

`mH` and `mF` are taken verbatim from the source (`mH = 1836.`,
`mF = 34883.`).  The reduced-mass assignment itself is left as a student
exercise in the notebook; `mu` below is modelled from the spec:
μ = (m_H · m_F) / (m_H + m_F). -/

def mH : ℚ := 1836

def mF : ℚ := 34883

/-- Modelled from the spec: reduced mass μ = (m_H · m_F) / (m_H + m_F);
the notebook leaves the `mu` assignment as an exercise but states the
formula in the surrounding text. -/
def mu : ℚ := mH * mF / (mH + mF)

/-- Modelled from the spec: harmonic frequency ν = (1/2π)·sqrt(k/μ); the
notebook leaves the `nu` assignment as an exercise but states the formula in
the surrounding text. -/
noncomputable def harmonicNu (k m : ℝ) : ℝ := 1 / (2 * Real.pi) * Real.sqrt (k / m)

/-- Vibrational energy in atomic units, from the source line
`E_vib_au = 2 * np.pi * nu`. -/
noncomputable def E_vib_au (nu : ℝ) : ℝ := 2 * Real.pi * nu

/-! ### `np.argmin` (used in `Req_idx = np.argmin(E_fine)`)

`np.argmin` returns the index of the smallest value; in case of ties it is
documented to return the index of the first occurrence.  `argminAux l i bi bv`
scans `l` whose head sits at global index `i`, carrying the best index `bi`
and best value `bv` seen so far, updating only on a strict decrease. -/

def argminAux : List ℚ → ℕ → ℕ → ℚ → ℕ
  | [], _, bi, _ => bi
  | v :: rest, i, bi, bv =>
    if v < bv then argminAux rest (i+1) i v else argminAux rest (i+1) bi bv

def argmin : List ℚ → ℕ
  | [] => 0
  | v :: rest => argminAux rest 1 0 v

/-- Full characterisation of the scan: either no element beats the carried
best value (and the carried index is returned), or the returned index points
at the first occurrence of the minimum among the elements that do. -/
theorem argminAux_spec (l : List ℚ) : ∀ (i bi : ℕ) (bv : ℚ),
    (argminAux l i bi bv = bi ∧ ∀ j, j < l.length → bv ≤ l.getD j 0)
    ∨ ∃ k, k < l.length ∧ argminAux l i bi bv = i + k
        ∧ l.getD k 0 < bv
        ∧ (∀ j, j < l.length → l.getD k 0 ≤ l.getD j 0)
        ∧ (∀ j, j < k → l.getD k 0 < l.getD j 0) := by
  induction l with
  | nil =>
    intro i bi bv
    left
    exact ⟨rfl, fun j hj => by simp at hj⟩
  | cons v rest ih =>
    intro i bi bv
    by_cases hv : v < bv
    · rw [argminAux, if_pos hv]
      rcases ih (i+1) i v with ⟨heq, hall⟩ | ⟨k, hk, heq, hlt, hmin, hfirst⟩
      · right
        refine ⟨0, by simp, by simpa using heq, by simpa using hv, ?_, ?_⟩
        · intro j hj
          match j with
          | 0 => simp
          | j+1 =>
            simp only [List.getD_cons_zero, List.getD_cons_succ]
            exact hall j (by simpa using hj)
        · intro j hj
          omega
      · right
        refine ⟨k+1, by simpa using hk, by rw [heq]; omega,
          by simpa using lt_trans hlt hv, ?_, ?_⟩
        · intro j hj
          match j with
          | 0 =>
            simp only [List.getD_cons_zero, List.getD_cons_succ]
            exact le_of_lt hlt
          | j+1 =>
            simp only [List.getD_cons_succ]
            exact hmin j (by simpa using hj)
        · intro j hj
          match j with
          | 0 =>
            simp only [List.getD_cons_zero, List.getD_cons_succ]
            exact hlt
          | j+1 =>
            simp only [List.getD_cons_succ]
            exact hfirst j (by omega)
    · rw [argminAux, if_neg hv]
      push_neg at hv
      rcases ih (i+1) bi bv with ⟨heq, hall⟩ | ⟨k, hk, heq, hlt, hmin, hfirst⟩
      · left
        refine ⟨heq, ?_⟩
        intro j hj
        match j with
        | 0 => simpa using hv
        | j+1 =>
          simp only [List.getD_cons_succ]
          exact hall j (by simpa using hj)
      · right
        refine ⟨k+1, by simpa using hk, by rw [heq]; omega, by simpa using hlt, ?_, ?_⟩
        · intro j hj
          match j with
          | 0 =>
            simp only [List.getD_cons_zero, List.getD_cons_succ]
            exact le_of_lt (lt_of_lt_of_le hlt hv)
          | j+1 =>
            simp only [List.getD_cons_succ]
            exact hmin j (by simpa using hj)
        · intro j hj
          match j with
          | 0 =>
            simp only [List.getD_cons_zero, List.getD_cons_succ]
            exact lt_of_lt_of_le hlt hv
          | j+1 =>
            simp only [List.getD_cons_succ]
            exact hfirst j (by omega)

theorem argmin_lt_length (l : List ℚ) (hne : l ≠ []) : argmin l < l.length := by
  match l with
  | v :: rest =>
    rw [argmin]
    rcases argminAux_spec rest 1 0 v with ⟨heq, _⟩ | ⟨k, hk, heq, _, _, _⟩
    · rw [heq]; simp
    · rw [heq]; simp; omega

theorem argmin_is_min (l : List ℚ) :
    ∀ j, j < l.length → l.getD (argmin l) 0 ≤ l.getD j 0 := by
  match l with
  | [] => intro j hj; simp at hj
  | v :: rest =>
    rw [argmin]
    rcases argminAux_spec rest 1 0 v with ⟨heq, hall⟩ | ⟨k, hk, heq, hlt, hmin, _⟩
    · rw [heq]
      intro j hj
      match j with
      | 0 => simp
      | j+1 =>
        simp only [List.getD_cons_zero, List.getD_cons_succ]
        exact hall j (by simpa using hj)
    · rw [heq]
      have hidx : 1 + k = k + 1 := by omega
      rw [hidx]
      intro j hj
      match j with
      | 0 =>
        simp only [List.getD_cons_zero, List.getD_cons_succ]
        exact le_of_lt hlt
      | j+1 =>
        simp only [List.getD_cons_succ]
        exact hmin j (by simpa using hj)

theorem argmin_first_occurrence (l : List ℚ) :
    ∀ j, j < argmin l → l.getD (argmin l) 0 < l.getD j 0 := by
  match l with
  | [] => intro j hj; rw [argmin] at hj; omega
  | v :: rest =>
    rw [argmin]
    rcases argminAux_spec rest 1 0 v with ⟨heq, _⟩ | ⟨k, hk, heq, hlt, _, hfirst⟩
    · rw [heq]
      intro j hj
      omega
    · rw [heq]
      have hidx : 1 + k = k + 1 := by omega
      rw [hidx]
      intro j hj
      match j with
      | 0 =>
        simp only [List.getD_cons_zero, List.getD_cons_succ]
        exact hlt
      | j+1 =>
        simp only [List.getD_cons_succ]
        exact hfirst j (by omega)

/-! ### The fine evaluation grid (`r_fine = np.linspace(0.5*1.89, 2.3*1.89, 200)`)

`np.linspace a b n` produces `n` evenly spaced values from `a` to `b`
inclusive, the i-th being `a + i·(b-a)/(n-1)`. -/

def linspace (a b : ℚ) (n : ℕ) : List ℚ :=
  (List.range n).map (fun (i : ℕ) => a + (i : ℚ) * ((b - a) / ((n : ℚ) - 1)))

def r_fine : List ℚ := linspace (0.5 * 1.89) (2.3 * 1.89) 200

/-- Source line `E_fine = E_spline(r_fine)`: the interpolant on the grid. -/
def E_fine (E_spl : ℚ → ℚ) : List ℚ := r_fine.map E_spl

/-- Source line `Req_idx = np.argmin(E_fine)`. -/
def Req_idx (E_spl : ℚ → ℚ) : ℕ := argmin (E_fine E_spl)

/-- Source line `Req = r_fine[Req_idx]`. -/
def Req (E_spl : ℚ → ℚ) : ℚ := r_fine.getD (Req_idx E_spl) 0

theorem linspace_length (a b : ℚ) (n : ℕ) : (linspace a b n).length = n := by
  rw [linspace, List.length_map, List.length_range]

theorem linspace_getD (a b : ℚ) (n i : ℕ) (hi : i < n) :
    (linspace a b n).getD i 0 = a + i * ((b - a) / ((n : ℚ) - 1)) := by
  rw [List.getD_eq_getElem _ _ (by rw [linspace_length]; omega)]
  simp only [linspace, List.getElem_map, List.getElem_range]

theorem r_fine_getD (i : ℕ) (hi : i < 200) :
    r_fine.getD i 0 = 189/200 + i * (1701/99500) := by
  rw [r_fine, linspace_getD _ _ _ _ hi]
  norm_num

theorem r_fine_mono (i j : ℕ) (hij : i ≤ j) (hj : j < 200) :
    r_fine.getD i 0 ≤ r_fine.getD j 0 := by
  rw [r_fine_getD i (by omega), r_fine_getD j hj]
  have : (i : ℚ) ≤ (j : ℚ) := by exact_mod_cast hij
  nlinarith

theorem r_fine_bounds (i : ℕ) (hi : i < 200) :
    0.5 * 1.89 ≤ r_fine.getD i 0 ∧ r_fine.getD i 0 ≤ 2.3 * 1.89 := by
  rw [r_fine_getD i hi]
  have h0 : (0 : ℚ) ≤ (i : ℚ) := by positivity
  have h199 : (i : ℚ) ≤ 199 := by exact_mod_cast Nat.le_of_lt_succ hi
  constructor <;> nlinarith

theorem E_fine_length (E_spl : ℚ → ℚ) : (E_fine E_spl).length = 200 := by
  rw [E_fine, List.length_map, r_fine, linspace_length]

/-- C3: on the fine grid, the extremum locator picks an index of minimal
energy, and whenever another grid point has the same (minimal) energy value
the returned separation `Req` is the lower r (first-occurrence tie-break of
`np.argmin`). -/
theorem extremumLocator_min_and_tiebreak (E_spl : ℚ → ℚ) :
    (∀ j, j < 200 → (E_fine E_spl).getD (Req_idx E_spl) 0 ≤ (E_fine E_spl).getD j 0)
    ∧ ∀ j, j < 200 → (E_fine E_spl).getD j 0 = (E_fine E_spl).getD (Req_idx E_spl) 0 →
        Req E_spl ≤ r_fine.getD j 0 := by
  have hlen := E_fine_length E_spl
  constructor
  · intro j hj
    exact argmin_is_min (E_fine E_spl) j (by omega)
  · intro j hj heq
    by_cases hlt : j < Req_idx E_spl
    · exfalso
      have hfo := argmin_first_occurrence (E_fine E_spl) j hlt
      simp only [Req_idx] at heq
      rw [heq] at hfo
      exact lt_irrefl _ hfo
    · push_neg at hlt
      rw [Req]
      exact r_fine_mono _ j hlt hj

/-- Witness for C3 at the concrete interpolant r ↦ (r-2)² and grid index 0. -/
theorem extremumLocator_min_and_tiebreak_witness :
    (E_fine (fun r => (r - 2)^2)).getD (Req_idx (fun r => (r - 2)^2)) 0
      ≤ (E_fine (fun r => (r - 2)^2)).getD 0 0 :=
  (extremumLocator_min_and_tiebreak (fun r => (r - 2)^2)).1 0 (by norm_num)

/-- C4 counterexample: the reduced mass produced by the formula
μ = (1836·34883)/(1836+34883) exceeds 1744, so it is not approximately
1743.0 (it differs from 1743.0 by more than 1). -/
theorem reducedMass_not_1743 : mu = 64045188 / 36719 ∧ 1744 < mu := by
  constructor <;> norm_num [mu, mH, mF]

/-- C4 (amended): the reduced mass equals (m_H·m_F)/(m_H+m_F) exactly, which
is 64045188/36719 ≈ 1744.2 atomic units (strictly between 1744.1 and
1744.3). -/
theorem reducedMass_value :
    mu = mH * mF / (mH + mF) ∧ mu = 64045188 / 36719
    ∧ 17441/10 < mu ∧ mu < 17443/10 := by
  refine ⟨rfl, ?_, ?_, ?_⟩ <;> norm_num [mu, mH, mF]

/-- C9: the evaluation grid is exactly 200 uniformly spaced points on the
closed interval [0.5·1.89, 2.3·1.89], and for every energy interpolant the
returned equilibrium separation `Req` is one of the grid points, hence lies
within that closed interval. -/
theorem grid_200_points_and_Req_in_range :
    r_fine.length = 200
    ∧ (∀ i, i + 1 < 200 →
        r_fine.getD (i+1) 0 - r_fine.getD i 0 = (2.3 * 1.89 - 0.5 * 1.89) / 199)
    ∧ r_fine.getD 0 0 = 0.5 * 1.89
    ∧ r_fine.getD 199 0 = 2.3 * 1.89
    ∧ ∀ E_spl : ℚ → ℚ,
        Req E_spl ∈ r_fine ∧ 0.5 * 1.89 ≤ Req E_spl ∧ Req E_spl ≤ 2.3 * 1.89 := by
  refine ⟨by rw [r_fine, linspace_length], ?_, ?_, ?_, ?_⟩
  · intro i hi
    rw [r_fine_getD (i+1) hi, r_fine_getD i (by omega)]
    push_cast
    ring_nf
  · rw [r_fine_getD 0 (by norm_num)]; norm_num
  · rw [r_fine_getD 199 (by norm_num)]; norm_num
  · intro E_spl
    have hidx : Req_idx E_spl < 200 := by
      have h1 : (E_fine E_spl) ≠ [] := by
        intro hcon
        have := E_fine_length E_spl
        rw [hcon] at this
        simp at this
      have h2 := argmin_lt_length (E_fine E_spl) h1
      rw [E_fine_length E_spl] at h2
      exact h2
    refine ⟨?_, (r_fine_bounds _ hidx).1, (r_fine_bounds _ hidx).2⟩
    rw [Req, List.getD_eq_getElem _ _ (by rw [r_fine, linspace_length]; exact hidx)]
    exact List.getElem_mem _

/-- Witness for C9: the first grid gap equals the common step. -/
theorem grid_200_points_and_Req_in_range_witness :
    r_fine.getD 1 0 - r_fine.getD 0 0 = (2.3 * 1.89 - 0.5 * 1.89) / 199 :=
  grid_200_points_and_Req_in_range.2.1 0 (by norm_num)

/-- C10: the vibrational energy `E_vib_au = 2π·ν` equals `sqrt(k/μ)` exactly
whenever ν is the harmonic frequency (1/2π)·sqrt(k/μ), for k, μ > 0. -/
theorem evib_eq_sqrt (k m : ℝ) (hk : 0 < k) (hm : 0 < m) :
    E_vib_au (harmonicNu k m) = Real.sqrt (k / m) := by
  rw [E_vib_au, harmonicNu]
  have hpi := Real.pi_ne_zero
  field_simp
  ring

/-- Witness for C10 at k = 4, μ = 1. -/
theorem evib_eq_sqrt_witness :
    (0 : ℝ) < 4 ∧ (0 : ℝ) < 1 ∧ E_vib_au (harmonicNu 4 1) = Real.sqrt (4 / 1) :=
  ⟨by norm_num, by norm_num, evib_eq_sqrt 4 1 (by norm_num) (by norm_num)⟩

/-! ### The Physical-Quantity Extractor (modelled from the spec)

The notebook leaves the force constant, frequency and error handling as
student exercises; the spec fixes them: the force constant is the curvature
interpolant evaluated at the equilibrium separation, ν = (1/2π)·sqrt(k/μ),
and k ≤ 0 signals `NonPhysicalCurvatureError`. -/

/-- Source intent `Force_Constant = Curvature_spline(Req)`: the curvature interpolant
evaluated at the equilibrium separation. -/
def Force_Constant (curv : ℚ → ℚ) (req : ℚ) : ℚ := curv req

noncomputable def extractNu (curv : ℚ → ℚ) (req : ℚ) : ℝ :=
  harmonicNu ((Force_Constant curv req : ℚ) : ℝ) ((mu : ℚ) : ℝ)

inductive ExtractError where
  | nonPhysicalCurvature

/-- Modelled from the spec: the extractor fails with
`NonPhysicalCurvatureError` when the curvature at the located minimum is not
positive, and otherwise returns the triple (force constant, reduced mass,
harmonic frequency). -/
noncomputable def extractQuantities (curv : ℚ → ℚ) (req : ℚ) :
    Except ExtractError (ℚ × ℚ × ℝ) :=
  if Force_Constant curv req ≤ 0 then .error .nonPhysicalCurvature
  else .ok (Force_Constant curv req, mu, extractNu curv req)

theorem mu_pos_real : (0 : ℝ) < ((mu : ℚ) : ℝ) := by
  norm_num [mu, mH, mF]

/-- C5: the harmonic frequency computed by the extractor satisfies
ν = (1/2π)·sqrt(k/μ) exactly, where k is the curvature interpolant evaluated
at the equilibrium separation; equivalently μ·(2πν)² recovers k. -/
theorem nu_from_curvature (curv : ℚ → ℚ) (req : ℚ)
    (hk : 0 < Force_Constant curv req) :
    extractNu curv req
      = 1 / (2 * Real.pi) * Real.sqrt (((Force_Constant curv req : ℚ) : ℝ) / ((mu : ℚ) : ℝ))
    ∧ ((mu : ℚ) : ℝ) * (2 * Real.pi * extractNu curv req)^2
      = ((Force_Constant curv req : ℚ) : ℝ) := by
  refine ⟨rfl, ?_⟩
  rw [extractNu, harmonicNu]
  have hkpos : (0 : ℝ) < ((Force_Constant curv req : ℚ) : ℝ) := by exact_mod_cast hk
  have hmu := mu_pos_real
  have hpi := Real.pi_ne_zero
  have h1 : 2 * Real.pi * (1 / (2 * Real.pi)
      * Real.sqrt (((Force_Constant curv req : ℚ) : ℝ) / ((mu : ℚ) : ℝ)))
      = Real.sqrt (((Force_Constant curv req : ℚ) : ℝ) / ((mu : ℚ) : ℝ)) := by
    field_simp
    ring
  rw [h1, Real.sq_sqrt (by positivity)]
  field_simp

/-- Witness for C5 at the constant curvature function 1 and r_eq = 0. -/
theorem nu_from_curvature_witness :
    0 < Force_Constant (fun _ => (1 : ℚ)) 0
    ∧ (extractNu (fun _ => (1 : ℚ)) 0
        = 1 / (2 * Real.pi)
          * Real.sqrt (((Force_Constant (fun _ => (1 : ℚ)) 0 : ℚ) : ℝ) / ((mu : ℚ) : ℝ))
      ∧ ((mu : ℚ) : ℝ) * (2 * Real.pi * extractNu (fun _ => (1 : ℚ)) 0)^2
        = ((Force_Constant (fun _ => (1 : ℚ)) 0 : ℚ) : ℝ)) :=
  ⟨by norm_num [Force_Constant],
    nu_from_curvature (fun _ => (1 : ℚ)) 0 (by norm_num [Force_Constant])⟩

/-- C6: the extractor signals `NonPhysicalCurvatureError` exactly when the
force constant (curvature at r_eq) is ≤ 0, and otherwise deterministically
returns the triple (force constant, reduced mass, harmonic frequency). -/
theorem extractor_error_cases (curv : ℚ → ℚ) (req : ℚ) :
    (Force_Constant curv req ≤ 0 →
      extractQuantities curv req = .error .nonPhysicalCurvature)
    ∧ (0 < Force_Constant curv req →
      extractQuantities curv req
        = .ok (Force_Constant curv req, mu, extractNu curv req)) := by
  constructor
  · intro hk
    rw [extractQuantities, if_pos hk]
  · intro hk
    rw [extractQuantities, if_neg (not_le.mpr hk)]

/-- Witness for C6: both branches at concrete curvature functions. -/
theorem extractor_error_cases_witness :
    extractQuantities (fun _ => (-1 : ℚ)) 0 = .error .nonPhysicalCurvature
    ∧ extractQuantities (fun _ => (1 : ℚ)) 0
      = .ok (Force_Constant (fun _ => (1 : ℚ)) 0, mu, extractNu (fun _ => (1 : ℚ)) 0) :=
  ⟨(extractor_error_cases (fun _ => (-1 : ℚ)) 0).1 (by norm_num [Force_Constant]),
    (extractor_error_cases (fun _ => (1 : ℚ)) 0).2 (by norm_num [Force_Constant])⟩

/-! ### The Spline Fitter (modelled from the spec)

The notebook's `E_spline = InterpolatedUnivariateSpline(x, y, k=3)` call and
the cells creating it are left to the student and the library internals are
not part of the repository.  Modelled from the spec: a cubic spline through
samples with strictly increasing r-values that passes exactly through every
sample and is continuous up to the second derivative at interior knots.  The
classical natural-cubic-spline construction is used: knot second derivatives
("moments") solve a tridiagonal system (Thomas algorithm), and each piece is
the cubic determined by the values and moments at its two knots.

Throughout, `xs i`/`ys i` are the i-th knot abscissa/ordinate and `n` is the
index of the last knot (`n + 1` samples). -/

def dx (xs : ℕ → ℚ) (i : ℕ) : ℚ := xs (i+1) - xs i

/-- Sub-diagonal coefficient of interior row `i` of the moment system. -/
def diagA (xs : ℕ → ℚ) (i : ℕ) : ℚ := dx xs (i-1)

/-- Diagonal coefficient of interior row `i` of the moment system. -/
def diagB (xs : ℕ → ℚ) (i : ℕ) : ℚ := 2 * (dx xs (i-1) + dx xs i)

/-- Super-diagonal coefficient of interior row `i` of the moment system. -/
def diagC (xs : ℕ → ℚ) (i : ℕ) : ℚ := dx xs i

/-- Right-hand side of interior row `i`: six times the difference of adjacent
divided differences. -/
def rhsD (xs ys : ℕ → ℚ) (i : ℕ) : ℚ :=
  6 * ((ys (i+1) - ys i) / dx xs i - (ys i - ys (i-1)) / dx xs (i-1))

/-- Forward-sweep modified super-diagonal coefficients (Thomas algorithm). -/
def cp (xs : ℕ → ℚ) : ℕ → ℚ
  | 0 => 0
  | i+1 => diagC xs (i+1) / (diagB xs (i+1) - diagA xs (i+1) * cp xs i)

/-- Forward-sweep modified right-hand sides (Thomas algorithm). -/
def dp (xs ys : ℕ → ℚ) : ℕ → ℚ
  | 0 => 0
  | i+1 => (rhsD xs ys (i+1) - diagA xs (i+1) * dp xs ys i)
      / (diagB xs (i+1) - diagA xs (i+1) * cp xs i)

/-- The pivot eliminated at row `i` during the forward sweep. -/
def pivot (xs : ℕ → ℚ) (i : ℕ) : ℚ := diagB xs i - diagA xs i * cp xs (i-1)

/-- Back substitution, counting down from the last knot: `mdown n j` is the
moment at knot `n - j`. -/
def mdown (xs ys : ℕ → ℚ) (n : ℕ) : ℕ → ℚ
  | 0 => 0
  | j+1 => dp xs ys (n - (j+1)) - cp xs (n - (j+1)) * mdown xs ys n j

/-- Knot second derivatives of the natural cubic spline: zero at both ends,
back-substituted Thomas solution at interior knots. -/
def moments (xs ys : ℕ → ℚ) (n : ℕ) (i : ℕ) : ℚ :=
  if i = 0 ∨ n ≤ i then 0 else mdown xs ys n (n - i)

theorem pivot_succ (xs : ℕ → ℚ) (i : ℕ) :
    pivot xs (i+1) = diagB xs (i+1) - diagA xs (i+1) * cp xs i := by
  rw [pivot, Nat.add_sub_cancel]

theorem cp_succ (xs : ℕ → ℚ) (i : ℕ) :
    cp xs (i+1) = diagC xs (i+1) / pivot xs (i+1) := by
  rw [pivot_succ, cp]

theorem dp_succ (xs ys : ℕ → ℚ) (i : ℕ) :
    dp xs ys (i+1)
      = (rhsD xs ys (i+1) - diagA xs (i+1) * dp xs ys i) / pivot xs (i+1) := by
  rw [pivot_succ, dp]

/-- The moments satisfy the back-substitution recurrence `M i = dp i - cp i · M (i+1)`
at every index up to `n - 1`. -/
theorem moments_rec (xs ys : ℕ → ℚ) (n i : ℕ) (hi : i ≤ n - 1) (hn : 1 ≤ n) :
    moments xs ys n i = dp xs ys i - cp xs i * moments xs ys n (i+1) := by
  rcases Nat.eq_zero_or_pos i with h0 | hpos
  · subst h0
    simp [moments, dp, cp]
  · have hnle : ¬ (i = 0 ∨ n ≤ i) := by omega
    rw [moments, if_neg hnle]
    have h3 : n - i = (n - i - 1) + 1 := by omega
    rw [h3, mdown]
    have h4 : n - (n - i - 1 + 1) = i := by omega
    rw [h4]
    have h5 : mdown xs ys n (n - i - 1) = moments xs ys n (i+1) := by
      by_cases htop : n ≤ i + 1
      · have h6 : n - i - 1 = 0 := by omega
        rw [h6, mdown, moments, if_pos (Or.inr htop)]
      · have h7 : ¬ (i + 1 = 0 ∨ n ≤ i + 1) := by omega
        rw [moments, if_neg h7]
        have h8 : n - (i + 1) = n - i - 1 := by omega
        rw [h8]
    rw [h5]

/-- Under strictly increasing knots every forward-sweep coefficient lies in
[0, 1); this is the diagonal-dominance argument that keeps the pivots away
from zero. -/
theorem cp_bounds (xs : ℕ → ℚ) (n : ℕ) (hinc : ∀ j, j < n → 0 < dx xs j) :
    ∀ i, i < n → 0 ≤ cp xs i ∧ cp xs i < 1 := by
  intro i
  induction i with
  | zero => intro _; simp [cp]
  | succ k ih =>
    intro hk1
    have hk : k < n := by omega
    obtain ⟨h0, h1⟩ := ih hk
    have hdxk : 0 < dx xs k := hinc k hk
    have hdxk1 : 0 < dx xs (k+1) := hinc (k+1) hk1
    have hA : diagA xs (k+1) = dx xs k := by rw [diagA, Nat.add_sub_cancel]
    have hB : diagB xs (k+1) = 2 * (dx xs k + dx xs (k+1)) := by
      rw [diagB, Nat.add_sub_cancel]
    have hpiv : 0 < diagB xs (k+1) - diagA xs (k+1) * cp xs k := by
      rw [hA, hB]; nlinarith
    rw [cp, diagC]
    constructor
    · exact le_of_lt (div_pos hdxk1 hpiv)
    · rw [div_lt_one hpiv, hA, hB]
      nlinarith

theorem pivot_pos (xs : ℕ → ℚ) (n : ℕ) (hinc : ∀ j, j < n → 0 < dx xs j) :
    ∀ i, 1 ≤ i → i < n → 0 < pivot xs i := by
  intro i h1 hi
  obtain ⟨k, rfl⟩ : ∃ k, i = k + 1 := ⟨i - 1, by omega⟩
  obtain ⟨h0, hlt⟩ := cp_bounds xs n hinc k (by omega)
  have hdxk : 0 < dx xs k := hinc k (by omega)
  have hdxk1 : 0 < dx xs (k+1) := hinc (k+1) hi
  have hA : diagA xs (k+1) = dx xs k := by rw [diagA, Nat.add_sub_cancel]
  have hB : diagB xs (k+1) = 2 * (dx xs k + dx xs (k+1)) := by
    rw [diagB, Nat.add_sub_cancel]
  rw [pivot_succ, hA, hB]
  nlinarith

/-- The Thomas-algorithm solution satisfies every interior row of the
tridiagonal moment system. -/
theorem thomas_row (xs ys : ℕ → ℚ) (n : ℕ) (hinc : ∀ j, j < n → 0 < dx xs j) :
    ∀ i, 1 ≤ i → i < n →
    diagA xs i * moments xs ys n (i-1) + diagB xs i * moments xs ys n i
      + diagC xs i * moments xs ys n (i+1) = rhsD xs ys i := by
  intro i h1 hi
  obtain ⟨k, rfl⟩ : ∃ k, i = k + 1 := ⟨i - 1, by omega⟩
  have hn1 : 1 ≤ n := by omega
  have hMk1 : moments xs ys n (k+1)
      = dp xs ys (k+1) - cp xs (k+1) * moments xs ys n (k+1+1) :=
    moments_rec xs ys n (k+1) (by omega) hn1
  have hMk : moments xs ys n k = dp xs ys k - cp xs k * moments xs ys n (k+1) :=
    moments_rec xs ys n k (by omega) hn1
  have hpiv : 0 < pivot xs (k+1) := pivot_pos xs n hinc (k+1) (by omega) hi
  have hcp := cp_succ xs k
  have hdp := dp_succ xs ys k
  have hpivdef := pivot_succ xs k
  rw [hpivdef] at hcp hdp hpiv
  have hne : diagB xs (k+1) - diagA xs (k+1) * cp xs k ≠ 0 := ne_of_gt hpiv
  rw [Nat.add_sub_cancel, hMk, hMk1, hcp, hdp]
  field_simp
  ring

/-! ### Spline pieces

Piece `i` of the spline lives on `[xs i, xs (i+1)]` and is the cubic with
values `ys i`, `ys (i+1)` and second derivatives `m i`, `m (i+1)` at its two
knots.  `pieceD` and `pieceDD` are its first and second derivative (proved to
be the exact analytic derivatives below). -/

def pieceVal (xs ys m : ℕ → ℚ) (i : ℕ) (t : ℚ) : ℚ :=
  m i * (xs (i+1) - t)^3 / (6 * dx xs i)
  + m (i+1) * (t - xs i)^3 / (6 * dx xs i)
  + (ys i - m i * (dx xs i)^2 / 6) * (xs (i+1) - t) / dx xs i
  + (ys (i+1) - m (i+1) * (dx xs i)^2 / 6) * (t - xs i) / dx xs i

def pieceD (xs ys m : ℕ → ℚ) (i : ℕ) (t : ℚ) : ℚ :=
  -(m i) * (xs (i+1) - t)^2 / (2 * dx xs i)
  + m (i+1) * (t - xs i)^2 / (2 * dx xs i)
  - (ys i - m i * (dx xs i)^2 / 6) / dx xs i
  + (ys (i+1) - m (i+1) * (dx xs i)^2 / 6) / dx xs i

def pieceDD (xs m : ℕ → ℚ) (i : ℕ) (t : ℚ) : ℚ :=
  m i * (xs (i+1) - t) / dx xs i + m (i+1) * (t - xs i) / dx xs i

theorem pieceVal_left (xs ys m : ℕ → ℚ) (i : ℕ) (hdx : dx xs i ≠ 0) :
    pieceVal xs ys m i (xs i) = ys i := by
  rw [pieceVal]
  have hd : xs (i+1) - xs i = dx xs i := rfl
  rw [hd]
  field_simp
  ring

theorem pieceVal_right (xs ys m : ℕ → ℚ) (i : ℕ) (hdx : dx xs i ≠ 0) :
    pieceVal xs ys m i (xs (i+1)) = ys (i+1) := by
  rw [pieceVal]
  have hd : xs (i+1) - xs i = dx xs i := rfl
  rw [sub_self, hd]
  field_simp
  ring

theorem pieceD_left (xs ys m : ℕ → ℚ) (i : ℕ) (hdx : dx xs i ≠ 0) :
    pieceD xs ys m i (xs i)
      = (ys (i+1) - ys i) / dx xs i - dx xs i * (2 * m i + m (i+1)) / 6 := by
  rw [pieceD]
  have hd : xs (i+1) - xs i = dx xs i := rfl
  rw [sub_self, hd]
  field_simp
  ring

theorem pieceD_right (xs ys m : ℕ → ℚ) (i : ℕ) (hdx : dx xs i ≠ 0) :
    pieceD xs ys m i (xs (i+1))
      = (ys (i+1) - ys i) / dx xs i + dx xs i * (m i + 2 * m (i+1)) / 6 := by
  rw [pieceD]
  have hd : xs (i+1) - xs i = dx xs i := rfl
  rw [sub_self, hd]
  field_simp
  ring

theorem pieceDD_left (xs m : ℕ → ℚ) (i : ℕ) (hdx : dx xs i ≠ 0) :
    pieceDD xs m i (xs i) = m i := by
  rw [pieceDD]
  have hd : xs (i+1) - xs i = dx xs i := rfl
  rw [sub_self, hd]
  field_simp

theorem pieceDD_right (xs m : ℕ → ℚ) (i : ℕ) (hdx : dx xs i ≠ 0) :
    pieceDD xs m i (xs (i+1)) = m (i+1) := by
  rw [pieceDD]
  have hd : xs (i+1) - xs i = dx xs i := rfl
  rw [sub_self, hd]
  field_simp

/-- Adjacent pieces agree in value at their shared knot (for any moments). -/
theorem pieceVal_junction (xs ys m : ℕ → ℚ) (i : ℕ)
    (hdx1 : dx xs i ≠ 0) (hdx2 : dx xs (i+1) ≠ 0) :
    pieceVal xs ys m i (xs (i+1)) = pieceVal xs ys m (i+1) (xs (i+1)) := by
  rw [pieceVal_right xs ys m i hdx1, pieceVal_left xs ys m (i+1) hdx2]

/-- Adjacent pieces agree in second derivative at their shared knot (for any
moments). -/
theorem pieceDD_junction (xs m : ℕ → ℚ) (i : ℕ)
    (hdx1 : dx xs i ≠ 0) (hdx2 : dx xs (i+1) ≠ 0) :
    pieceDD xs m i (xs (i+1)) = pieceDD xs m (i+1) (xs (i+1)) := by
  rw [pieceDD_right xs m i hdx1, pieceDD_left xs m (i+1) hdx2]

/-- Adjacent pieces agree in first derivative at their shared knot exactly
when the moments satisfy the interior row of the tridiagonal system. -/
theorem pieceD_junction (xs ys m : ℕ → ℚ) (i : ℕ)
    (hdx1 : dx xs i ≠ 0) (hdx2 : dx xs (i+1) ≠ 0)
    (hrow : diagA xs (i+1) * m i + diagB xs (i+1) * m (i+1)
      + diagC xs (i+1) * m (i+1+1) = rhsD xs ys (i+1)) :
    pieceD xs ys m i (xs (i+1)) = pieceD xs ys m (i+1) (xs (i+1)) := by
  rw [pieceD_right xs ys m i hdx1, pieceD_left xs ys m (i+1) hdx2]
  rw [diagA, diagB, diagC, rhsD, Nat.add_sub_cancel] at hrow
  linear_combination hrow / 6

/-! ### Global evaluation: locate the piece, evaluate it -/

theorem dx_pos (xs : ℕ → ℚ) (n : ℕ) (hinc : ∀ i, i < n → xs i < xs (i+1))
    (i : ℕ) (hi : i < n) : 0 < dx xs i :=
  sub_pos.mpr (hinc i hi)

theorem xs_mono (xs : ℕ → ℚ) (n : ℕ) (hinc : ∀ i, i < n → xs i < xs (i+1)) :
    ∀ b, b ≤ n → ∀ a, a ≤ b → xs a ≤ xs b := by
  intro b
  induction b with
  | zero =>
    intro _ a ha
    have h0 : a = 0 := by omega
    simp [h0]
  | succ k ih =>
    intro hk a ha
    by_cases hcase : a = k + 1
    · simp [hcase]
    · calc xs a ≤ xs k := ih (by omega) a (by omega)
        _ ≤ xs (k+1) := le_of_lt (hinc k (by omega))

theorem xs_strictMono (xs : ℕ → ℚ) (n : ℕ) (hinc : ∀ i, i < n → xs i < xs (i+1)) :
    ∀ a b, a < b → b ≤ n → xs a < xs b := by
  intro a b hab hbn
  obtain ⟨k, rfl⟩ : ∃ k, b = k + 1 := ⟨b - 1, by omega⟩
  have h1 : xs a ≤ xs k := xs_mono xs n hinc k (by omega) a (by omega)
  have h2 : xs k < xs (k+1) := hinc k (by omega)
  linarith

/-- Search downward from index `k` for the last knot not exceeding `t`. -/
def pieceIdxAux (xs : ℕ → ℚ) (t : ℚ) : ℕ → ℕ
  | 0 => 0
  | j+1 => if xs (j+1) ≤ t then j+1 else pieceIdxAux xs t j

/-- Index of the piece on which `t` is evaluated (clamped to `[0, n-1]`). -/
def pieceIdx (xs : ℕ → ℚ) (n : ℕ) (t : ℚ) : ℕ := pieceIdxAux xs t (n-1)

/-- The interpolant: evaluate the piece containing `t`. -/
def evalSpline (xs ys m : ℕ → ℚ) (n : ℕ) (t : ℚ) : ℚ :=
  pieceVal xs ys m (pieceIdx xs n t) t

theorem pieceIdxAux_knot (xs : ℕ → ℚ) (n : ℕ)
    (hinc : ∀ i, i < n → xs i < xs (i+1)) (j : ℕ) (hj : j ≤ n) :
    ∀ k, j ≤ k → k ≤ n → pieceIdxAux xs (xs j) k = j := by
  intro k
  induction k with
  | zero =>
    intro h1 _
    have h0 : j = 0 := by omega
    simp [pieceIdxAux, h0]
  | succ kk ih =>
    intro h1 h2
    by_cases hcase : j = kk + 1
    · subst hcase
      rw [pieceIdxAux, if_pos (le_refl _)]
    · have hjk : j ≤ kk := by omega
      have hlt : xs j < xs (kk+1) := xs_strictMono xs n hinc j (kk+1) (by omega) h2
      rw [pieceIdxAux, if_neg (not_le.mpr hlt)]
      exact ih hjk (by omega)

theorem pieceIdx_knot (xs : ℕ → ℚ) (n : ℕ)
    (hinc : ∀ i, i < n → xs i < xs (i+1)) (j : ℕ) (hj : j ≤ n - 1) :
    pieceIdx xs n (xs j) = j :=
  pieceIdxAux_knot xs n hinc j (by omega) (n-1) hj (by omega)

theorem pieceIdx_top (xs : ℕ → ℚ) (n : ℕ)
    (hinc : ∀ i, i < n → xs i < xs (i+1)) (hn : 1 ≤ n) :
    pieceIdx xs n (xs n) = n - 1 := by
  rw [pieceIdx]
  obtain ⟨k, hk⟩ : ∃ k, n - 1 = k ∨ n - 1 = k + 1 := ⟨n - 2, by omega⟩
  rcases Nat.eq_zero_or_pos (n - 1) with h0 | hpos
  · rw [h0, pieceIdxAux]
  · obtain ⟨kk, hkk⟩ : ∃ kk, n - 1 = kk + 1 := ⟨n - 2, by omega⟩
    rw [hkk, pieceIdxAux, if_pos]
    exact xs_mono xs n hinc n (le_refl n) (kk+1) (by omega)

/-- Interpolation exactness: the spline evaluated at knot `j` returns the
sample value `ys j`, for any choice of moments. -/
theorem evalSpline_knot (xs ys m : ℕ → ℚ) (n : ℕ)
    (hinc : ∀ i, i < n → xs i < xs (i+1)) (hn : 1 ≤ n)
    (j : ℕ) (hj : j ≤ n) :
    evalSpline xs ys m n (xs j) = ys j := by
  by_cases htop : j ≤ n - 1
  · rw [evalSpline, pieceIdx_knot xs n hinc j htop]
    exact pieceVal_left xs ys m j (ne_of_gt (dx_pos xs n hinc j (by omega)))
  · have hjn : j = n := by omega
    rw [hjn, evalSpline, pieceIdx_top xs n hinc hn]
    have h1 : n - 1 + 1 = n := by omega
    have h2 := pieceVal_right xs ys m (n-1)
      (ne_of_gt (dx_pos xs n hinc (n-1) (by omega)))
    rw [h1] at h2
    exact h2

/-! ### The fitter interface: validation, then construction -/

structure Spline where
  n : ℕ
  xs : ℕ → ℚ
  ys : ℕ → ℚ
  mm : ℕ → ℚ

inductive FitError where
  | insufficientData
  | nonMonotonicInput

def sampleXs (samples : List (ℚ × ℚ)) (i : ℕ) : ℚ := (samples.getD i (0, 0)).1

def sampleYs (samples : List (ℚ × ℚ)) (i : ℕ) : ℚ := (samples.getD i (0, 0)).2

/-- Strict monotonicity check on the r-values. -/
def increasingR : List ℚ → Bool
  | [] => true
  | [_] => true
  | a :: b :: rest => decide (a < b) && increasingR (b :: rest)

def fitSpline (samples : List (ℚ × ℚ)) : Spline :=
  ⟨samples.length - 1, sampleXs samples, sampleYs samples,
    moments (sampleXs samples) (sampleYs samples) (samples.length - 1)⟩

/-- Modelled from the spec: the Spline Fitter fails with
`InsufficientDataError` on fewer than 4 samples and with
`NonMonotonicInputError` when the r-values are not strictly increasing;
otherwise it returns the cubic-spline interpolant.  (The notebook delegates
to `InterpolatedUnivariateSpline(x, y, k=3)`, whose construction is not part
of the repository.) -/
def E_spline_fit (samples : List (ℚ × ℚ)) : Except FitError Spline :=
  if samples.length < 4 then .error .insufficientData
  else if increasingR (samples.map Prod.fst) then .ok (fitSpline samples)
  else .error .nonMonotonicInput

theorem increasingR_spec : ∀ (l : List ℚ), increasingR l = true →
    ∀ i, i + 1 < l.length → l.getD i 0 < l.getD (i+1) 0 := by
  intro l
  induction l with
  | nil => intro _ i hi; simp at hi
  | cons a tail ih =>
    intro hinc i hi
    cases tail with
    | nil => simp at hi
    | cons b rest =>
      rw [increasingR] at hinc
      simp only [Bool.and_eq_true, decide_eq_true_eq] at hinc
      obtain ⟨hab, htail⟩ := hinc
      match i with
      | 0 => simpa using hab
      | i+1 =>
        simp only [List.getD_cons_succ]
        exact ih htail i (by simpa using hi)

theorem getD_map_fst (samples : List (ℚ × ℚ)) (i : ℕ) (hi : i < samples.length) :
    (samples.map Prod.fst).getD i 0 = (samples.getD i (0, 0)).1 := by
  rw [List.getD_eq_getElem _ _ (by rw [List.length_map]; omega),
    List.getD_eq_getElem _ _ hi, List.getElem_map]

theorem increasingR_to_idx (samples : List (ℚ × ℚ))
    (hinc : increasingR (samples.map Prod.fst) = true) :
    ∀ i, i < samples.length - 1 → sampleXs samples i < sampleXs samples (i+1) := by
  intro i hi
  have h := increasingR_spec (samples.map Prod.fst) hinc i
    (by rw [List.length_map]; omega)
  rw [getD_map_fst samples i (by omega), getD_map_fst samples (i+1) (by omega)] at h
  exact h

/-- C2: the Spline Fitter fails with `InsufficientDataError` on fewer than 4
samples, fails with `NonMonotonicInputError` when the r-values are not
strictly increasing, and succeeds otherwise. -/
theorem fitter_error_cases (samples : List (ℚ × ℚ)) :
    (samples.length < 4 → E_spline_fit samples = .error .insufficientData)
    ∧ (4 ≤ samples.length → increasingR (samples.map Prod.fst) = false →
        E_spline_fit samples = .error .nonMonotonicInput)
    ∧ (4 ≤ samples.length → increasingR (samples.map Prod.fst) = true →
        E_spline_fit samples = .ok (fitSpline samples)) := by
  refine ⟨?_, ?_, ?_⟩
  · intro h
    rw [E_spline_fit, if_pos h]
  · intro h hmon
    rw [E_spline_fit, if_neg (by omega)]
    simp [hmon]
  · intro h hmon
    rw [E_spline_fit, if_neg (by omega)]
    simp [hmon]

/-- Witness for C2: all three branches at concrete sample lists. -/
theorem fitter_error_cases_witness :
    E_spline_fit [((1:ℚ),(0:ℚ)), (2,0), (3,0)] = .error .insufficientData
    ∧ E_spline_fit [((1:ℚ),(0:ℚ)), (1,0), (2,0), (3,0)] = .error .nonMonotonicInput
    ∧ E_spline_fit [((0:ℚ),(0:ℚ)), (1,1), (2,4), (3,9)]
      = .ok (fitSpline [((0:ℚ),(0:ℚ)), (1,1), (2,4), (3,9)]) :=
  ⟨(fitter_error_cases _).1 (by decide),
    (fitter_error_cases _).2.1 (by decide) (by decide),
    (fitter_error_cases _).2.2 (by decide) (by decide)⟩

/-- C1: for at least 4 samples with strictly increasing r-values, the fitted
spline passes exactly through every sample, and at every interior knot the
adjacent pieces agree in value, first derivative and second derivative
(continuity up to the second derivative; `pieceD`/`pieceDD` are the exact
derivatives of the pieces by `cubic_hasDerivAt` below). -/
theorem spline_interpolation_and_smoothness (samples : List (ℚ × ℚ)) (s : Spline)
    (hfit : E_spline_fit samples = .ok s) :
    (∀ j, j < samples.length →
        evalSpline s.xs s.ys s.mm s.n ((samples.getD j (0,0)).1)
          = (samples.getD j (0,0)).2)
    ∧ (∀ i, i + 2 ≤ s.n →
        pieceVal s.xs s.ys s.mm i (s.xs (i+1))
            = pieceVal s.xs s.ys s.mm (i+1) (s.xs (i+1))
        ∧ pieceD s.xs s.ys s.mm i (s.xs (i+1))
            = pieceD s.xs s.ys s.mm (i+1) (s.xs (i+1))
        ∧ pieceDD s.xs s.mm i (s.xs (i+1))
            = pieceDD s.xs s.mm (i+1) (s.xs (i+1))) := by
  have h1 : ¬ samples.length < 4 := by
    intro hcon
    rw [E_spline_fit, if_pos hcon] at hfit
    exact Except.noConfusion hfit
  have h2 : increasingR (samples.map Prod.fst) = true := by
    by_cases h2 : increasingR (samples.map Prod.fst) = true
    · exact h2
    · rw [E_spline_fit, if_neg h1, if_neg h2] at hfit
      exact Except.noConfusion hfit
  have hs : fitSpline samples = s := by
    rw [E_spline_fit, if_neg h1, if_pos h2] at hfit
    exact Except.ok.inj hfit
  subst hs
  have hincx := increasingR_to_idx samples h2
  have hdxpos : ∀ j, j < samples.length - 1 → 0 < dx (sampleXs samples) j :=
    fun j hj => dx_pos (sampleXs samples) (samples.length - 1) hincx j hj
  constructor
  · intro j hj
    exact evalSpline_knot (sampleXs samples) (sampleYs samples)
      (moments (sampleXs samples) (sampleYs samples) (samples.length - 1))
      (samples.length - 1) hincx (by omega) j (by omega)
  · intro i hi
    have hi' : i + 2 ≤ samples.length - 1 := hi
    have hdx1 : dx (sampleXs samples) i ≠ 0 := ne_of_gt (hdxpos i (by omega))
    have hdx2 : dx (sampleXs samples) (i+1) ≠ 0 := ne_of_gt (hdxpos (i+1) (by omega))
    have hrow := thomas_row (sampleXs samples) (sampleYs samples)
      (samples.length - 1) hdxpos (i+1) (by omega) (by omega)
    rw [Nat.add_sub_cancel] at hrow
    exact ⟨pieceVal_junction _ _ _ i hdx1 hdx2,
      pieceD_junction _ _ _ i hdx1 hdx2 hrow,
      pieceDD_junction _ _ i hdx1 hdx2⟩

def demoSamples : List (ℚ × ℚ) := [(0, 0), (1, 1), (2, 4), (3, 9)]

/-- Witness for C1: the fitted spline through the 4 demo samples reproduces
the second sample exactly. -/
theorem spline_interpolation_and_smoothness_witness :
    evalSpline (fitSpline demoSamples).xs (fitSpline demoSamples).ys
      (fitSpline demoSamples).mm (fitSpline demoSamples).n
      ((demoSamples.getD 1 (0,0)).1) = (demoSamples.getD 1 (0,0)).2 :=
  (spline_interpolation_and_smoothness demoSamples (fitSpline demoSamples)
    (by rw [E_spline_fit, if_neg (by decide), if_pos (by decide)])).1 1 (by decide)

/-! ### The Differentiator (`spline.derivative()`, modelled from the spec)

`spline.derivative()` returns a new piecewise polynomial whose coefficients
are obtained by symbolic differentiation of each piece; no finite
differences are involved.  `derivCubic` is that coefficient operation on a
cubic `c0 + c1·t + c2·t² + c3·t³`. -/

def evalCubic (c : ℚ × ℚ × ℚ × ℚ) (t : ℚ) : ℚ :=
  c.1 + c.2.1 * t + c.2.2.1 * t^2 + c.2.2.2 * t^3

/-- Symbolic differentiation of a cubic in the coefficient representation. -/
def derivCubic (c : ℚ × ℚ × ℚ × ℚ) : ℚ × ℚ × ℚ × ℚ :=
  (c.2.1, 2 * c.2.2.1, 3 * c.2.2.2, 0)

/-- Monomial coefficients of spline piece `i` (the expansion of `pieceVal`). -/
def pieceCoeffs (xs ys m : ℕ → ℚ) (i : ℕ) : ℚ × ℚ × ℚ × ℚ :=
  (m i * (xs (i+1))^3 / (6 * dx xs i) - m (i+1) * (xs i)^3 / (6 * dx xs i)
     + (ys i - m i * (dx xs i)^2 / 6) * (xs (i+1)) / dx xs i
     - (ys (i+1) - m (i+1) * (dx xs i)^2 / 6) * (xs i) / dx xs i,
   -3 * m i * (xs (i+1))^2 / (6 * dx xs i) + 3 * m (i+1) * (xs i)^2 / (6 * dx xs i)
     - (ys i - m i * (dx xs i)^2 / 6) / dx xs i
     + (ys (i+1) - m (i+1) * (dx xs i)^2 / 6) / dx xs i,
   3 * m i * (xs (i+1)) / (6 * dx xs i) - 3 * m (i+1) * (xs i) / (6 * dx xs i),
   -(m i) / (6 * dx xs i) + m (i+1) / (6 * dx xs i))

/-- A cubic's symbolic derivative is its exact analytic derivative. -/
theorem cubic_hasDerivAt (c : ℚ × ℚ × ℚ × ℚ) (t : ℚ) :
    HasDerivAt (evalCubic c) (evalCubic (derivCubic c) t) t := by
  have h1 := (((hasDerivAt_const t c.1).add ((hasDerivAt_id t).const_mul c.2.1)).add
      ((hasDerivAt_pow 2 t).const_mul c.2.2.1)).add
      ((hasDerivAt_pow 3 t).const_mul c.2.2.2)
  convert h1 using 1
  rw [evalCubic, derivCubic]
  norm_num
  ring

/-- C7: on the coefficient representation, the Differentiator applied to an
energy piece returns its exact analytic derivative (not a finite-difference
approximation), and applying it twice yields the curvature function — the
exact second derivative of the piecewise cubic. -/
theorem differentiator_exact (xs ys m : ℕ → ℚ) (i : ℕ) (t : ℚ) :
    evalCubic (pieceCoeffs xs ys m i) t = pieceVal xs ys m i t
    ∧ HasDerivAt (evalCubic (pieceCoeffs xs ys m i))
        (evalCubic (derivCubic (pieceCoeffs xs ys m i)) t) t
    ∧ evalCubic (derivCubic (pieceCoeffs xs ys m i)) t = pieceD xs ys m i t
    ∧ HasDerivAt (evalCubic (derivCubic (pieceCoeffs xs ys m i)))
        (evalCubic (derivCubic (derivCubic (pieceCoeffs xs ys m i))) t) t
    ∧ evalCubic (derivCubic (derivCubic (pieceCoeffs xs ys m i))) t
        = pieceDD xs m i t := by
  refine ⟨?_, cubic_hasDerivAt _ t, ?_, cubic_hasDerivAt _ t, ?_⟩
  · rw [evalCubic, pieceCoeffs, pieceVal]
    ring
  · rw [evalCubic, derivCubic, pieceCoeffs, pieceD]
    ring
  · rw [evalCubic, derivCubic, derivCubic, pieceCoeffs, pieceDD]
    ring

end IRAnalysis
